import Mathlib

/-!
Shallow embedding of the rusthello AI move-selection engine
(`src/rusthello/ai_player.rs` and `src/rusthello/players/mod.rs`)
and proofs about the claims of its specification.

Floating-point heuristic values (`f64`/`f32`) are modelled as rationals:
every arithmetic operation performed by the source on them (addition,
subtraction, division of small integers, comparison, multiplication by a
jitter factor) is exact at the inputs the claims quantify over, so the
comparison structure is preserved.  `u32`/`u16` counters are modelled as
`Nat`; the source's budget constants (at most 10000) keep every
intermediate value far below `2^32`, and the one place where the source
deliberately saturates (`checked_sub(..).unwrap_or(0)`) is modelled by
`Nat` truncated subtraction, which has exactly that semantics.
-/

set_option maxHeartbeats 1600000

namespace Rusthello

/-- `reversi::Side` / `reversi::Disk`: the two players. -/
inductive Side where
  | dark : Side
  | light : Side
deriving DecidableEq, Repr

/-- Errors of the Rules collaborator and modelled panics. -/
inductive RErr where
  | endedGame : RErr
  | outOfBounds : RErr
  | noMoves : RErr
  | emptyFold : RErr
  | badIndex : RErr
deriving DecidableEq, Repr

/-- `Score` from `ai_player.rs` (and, up to field names, the
`Score`/`EndGame` type of `players/mod.rs`): a provisional heuristic
value or a final score differential. -/
inductive Score where
  | running (v : ℚ) : Score
  | ended (d : ℤ) : Score
deriving DecidableEq, Repr

/-- `impl PartialOrd for Score` in `ai_player.rs` (lines 23-46): equal
values compare `Equal`; otherwise the boolean condition of the source
decides between `Greater` and `Less`. -/
def scoreCmp (a b : Score) : Ordering :=
  if a = b then .eq
  else if (match a, b with
      | .running v1, .running v2 => decide (v2 < v1)
      | .running v1, .ended s2 => decide (s2 < 0) || (decide (s2 = 0) && decide (0 < v1))
      | .ended s1, .running v2 => decide (0 < s1) || (decide (s1 = 0) && decide (v2 < 0))
      | .ended s1, .ended s2 => decide (s2 < s1)) = true
  then .gt else .lt

/-- `Score::is_better` from `players/mod.rs` (lines 31-46). -/
def Score.is_better (first second : Score) : Bool :=
  match first with
  | .running v1 =>
    match second with
    | .running v2 => decide (v2 < v1)
    | .ended s2 => decide (s2 < 0) || (decide (s2 = 0) && decide (0 < v1))
  | .ended s1 =>
    match second with
    | .running v2 => decide (0 < s1) || (decide (s1 = 0) && decide (v2 < 0))
    | .ended s2 => decide (s2 < s1)

/-- `Score::is_better_for` from `players/mod.rs` (lines 24-29). -/
def Score.is_better_for (first second : Score) (side : Side) : Bool :=
  match side with
  | .light => Score.is_better first second
  | .dark => !(Score.is_better first second)

/-- `MoveScore` from `players/mod.rs` (lines 51-55). -/
structure MoveScore where
  score : Score
  coord : Nat × Nat
deriving DecidableEq, Repr

/-- `MoveScore::is_better_for` from `players/mod.rs` (lines 57-64). -/
def MoveScore.is_better_for (first second : MoveScore) (side : Side) : Bool :=
  match side with
  | .light => Score.is_better first.score second.score
  | .dark => !(Score.is_better first.score second.score)

/-- The join-and-fold step of `players/mod.rs::find_best_move`
(lines 172-182): fold the task results in consumption order, replacing
the current best exactly when `MoveScore::is_better_for` says the new
result is better for the side to move. -/
def foldBest (results : List MoveScore) (side : Side) : Option MoveScore :=
  results.foldl
    (fun best new =>
      match best with
      | none => some new
      | some old => if MoveScore.is_better_for new old side then some new else some old)
    none

/-- Board coordinate `(row, col)`. -/
abbrev Coord := Nat × Nat

/-- The `get_cell` probe of the Rules collaborator: a cell lookup that
either fails (e.g. `OutOfBounds`) or returns the occupant, if any. -/
abbrev Board := Coord → Except RErr (Option Side)

def CORNER_BONUS : Nat := 45
def ODD_CORNER_MALUS : Nat := 25
def EVEN_CORNER_BONUS : Nat := 10
def ODD_MALUS : Nat := 6
def EVEN_BONUS : Nat := 4

/-- The `sides` array of `heavy_eval` (lines 214-218): for each corner,
the tuple `(corner, odd, odd_corner, even, even_corner, counter_odd,
counter_even)`. -/
def heavySides : List (Coord × Coord × Coord × Coord × Coord × Coord × Coord) :=
  [((0, 0), (0, 1), (1, 1), (0, 2), (2, 2), (1, 0), (2, 0)),
   ((0, 7), (1, 7), (1, 6), (2, 7), (2, 5), (0, 6), (0, 5)),
   ((7, 0), (6, 0), (6, 1), (5, 0), (5, 2), (7, 1), (7, 2)),
   ((7, 7), (6, 7), (6, 6), (5, 7), (5, 5), (7, 6), (7, 5))]

/-- One `if let`/`else if let` pair of `heavy_eval`: look up `cMalus`
first; if occupied, credit `wMalus` to the occupant's opponent; if
empty, look up `cBonus` and, if occupied, credit `wBonus` to the
occupant.  Returns the `(light, dark)` score contribution together with
the cells actually looked up, short-circuiting on a lookup error. -/
def cellPair (b : Board) (cMalus cBonus : Coord) (wMalus wBonus : Nat) :
    Except RErr (Nat × Nat) × List Coord :=
  match b cMalus with
  | .error e => (.error e, [cMalus])
  | .ok (some d) =>
    (.ok (match d with | .light => (0, wMalus) | .dark => (wMalus, 0)), [cMalus])
  | .ok none =>
    match b cBonus with
    | .error e => (.error e, [cMalus, cBonus])
    | .ok (some d) =>
      (.ok (match d with | .light => (wBonus, 0) | .dark => (0, wBonus)), [cMalus, cBonus])
    | .ok none => (.ok (0, 0), [cMalus, cBonus])

/-- One iteration of the `for &(corner, ...) in &sides` loop of
`heavy_eval` (lines 223-273): the `(light, dark)` contribution of one
corner group, with the performed lookups, short-circuiting on error. -/
def evalCorner (b : Board)
    (g : Coord × Coord × Coord × Coord × Coord × Coord × Coord) :
    Except RErr (Nat × Nat) × List Coord :=
  match g with
  | (corner, odd, oddCorner, even, evenCorner, counterOdd, counterEven) =>
    match b corner with
    | .error e => (.error e, [corner])
    | .ok (some d) =>
      (.ok (match d with | .light => (CORNER_BONUS, 0) | .dark => (0, CORNER_BONUS)),
        [corner])
    | .ok none =>
      match cellPair b odd even ODD_MALUS EVEN_BONUS with
      | (.error e, t1) => (.error e, corner :: t1)
      | (.ok p1, t1) =>
        match cellPair b counterOdd counterEven ODD_MALUS EVEN_BONUS with
        | (.error e, t2) => (.error e, corner :: t1 ++ t2)
        | (.ok p2, t2) =>
          match cellPair b oddCorner evenCorner ODD_CORNER_MALUS EVEN_CORNER_BONUS with
          | (.error e, t3) => (.error e, corner :: t1 ++ t2 ++ t3)
          | (.ok p3, t3) =>
            (.ok (p1.1 + p2.1 + p3.1, p1.2 + p2.2 + p3.2),
              corner :: t1 ++ t2 ++ t3)

/-- The loop of `heavy_eval` over the four corner groups, threading the
`score_light`/`score_dark` accumulators and collecting the performed
lookups; on completion, the final value
`(score_light - score_dark) / (score_dark + score_light)`. -/
def heavyGroups (b : Board) :
    List (Coord × Coord × Coord × Coord × Coord × Coord × Coord) →
    Nat → Nat → Except RErr ℚ × List Coord
  | [], light, dark =>
    (.ok (((light : ℚ) - (dark : ℚ)) / (((dark + light : Nat) : ℚ))), [])
  | g :: rest, light, dark =>
    match evalCorner b g with
    | (.error e, tr) => (.error e, tr)
    | (.ok (dl, dd), tr) =>
      let next := heavyGroups b rest (light + dl) (dark + dd)
      (next.1, tr ++ next.2)

/-- `heavy_eval` (lines 204-275) instrumented with the list of cell
lookups it performs, in order.  Both accumulators start at 1. -/
def heavy_evalT (b : Board) : Except RErr ℚ × List Coord :=
  heavyGroups b heavySides 1 1

/-- `AiPlayer::heavy_eval` (lines 204-275): the static positional
scorer.  It is the first projection of the instrumented version. -/
def heavy_eval (b : Board) : Except RErr ℚ :=
  (heavy_evalT b).1

/-- A game position as seen through the Rules collaborator
(`reversi::turn::Turn`), shallowly embedded as its game tree:
either the game is ended with a final score differential
(`get_state() == None`, `is_endgame()`, `get_score_diff()`), or a side
is to move, the board answers `get_cell` probes, and `moves` lists the
legal moves in the row-major order the source's enumeration loop
produces them, each paired with the position `make_move` yields. -/
inductive Pos where
  | ended (d : ℤ) : Pos
  | running (s : Side) (b : Board) (moves : List (Coord × Pos)) : Pos

/-- Rust's `Iterator::min` (first of equally-minimal elements kept):
a left fold with `cmp::min_by`. -/
def rustMinBy {α : Type} (cmp : α → α → Ordering) : List α → Option α
  | [] => none
  | x :: xs => some (xs.foldl (fun acc y => if cmp acc y = .gt then y else acc) x)

/-- Rust's `Iterator::max` (last of equally-maximal elements kept):
a left fold with `cmp::max_by`. -/
def rustMaxBy {α : Type} (cmp : α → α → Ordering) : List α → Option α
  | [] => none
  | x :: xs => some (xs.foldl (fun acc y => if cmp acc y = .gt then acc else y) x)

/-- Lines 195-199 of `ai_eval_with_leftover`: fold the collected child
scores with `Iterator::min` for Dark and `Iterator::max` for Light
(the `expect` on an empty fold is modelled as an error). -/
def sideFold (side : Side) (scores : List Score) : Except RErr Score :=
  match side with
  | .dark =>
    match rustMinBy scoreCmp scores with
    | none => .error .emptyFold
    | some sc => .ok sc
  | .light =>
    match rustMaxBy scoreCmp scores with
    | none => .error .emptyFold
    | some sc => .ok sc

/-- The sub-budget `new_comps = leftover / turns_left` allocated to one
recursive child (line 184). -/
def newComps (leftover turnsLeft : Nat) : Nat := leftover / turnsLeft

/-- The initial `leftover = comps.checked_sub(moves.len()).unwrap_or(0)`
(line 174): saturating subtraction. -/
def initLeftover (comps len : Nat) : Nat := comps - len

lemma sizeOf_list_append (l1 l2 : List (Coord × Pos)) :
    sizeOf (l1 ++ l2) + 1 = sizeOf l1 + sizeOf l2 := by
  induction l1 with
  | nil => simp; omega
  | cons a l ih => simp [List.cons_append]; omega

lemma sizeOf_list_reverse (l : List (Coord × Pos)) :
    sizeOf l.reverse = sizeOf l := by
  induction l with
  | nil => rfl
  | cons a l ih =>
    rw [List.reverse_cons]
    have h1 := sizeOf_list_append l.reverse [a]
    have h2 : sizeOf ([a] : List (Coord × Pos)) = 2 + sizeOf a := by simp; omega
    have h3 : sizeOf (a :: l) = 1 + sizeOf a + sizeOf l := by simp
    omega

mutual

/-- `AiPlayer::ai_eval_with_leftover` (lines 140-202), instrumented with
a third component counting the evaluation units the call consumes in the
claims' accounting: one unit per direct heuristic leaf evaluation plus
the units each recursive child retains (`new_comps - returned_leftover`).
An ended position (`moves.len() == 0` after enumeration would be
reached only on an ended game) models the source's `unreachable!` panic
as an error.  A single legal move is made without charging budget and
the loop restarts on the resulting position (returning `Ended` with the
full budget if it ended the game); otherwise the reversed candidate
list is processed by `scoresLoop` and the scores folded side-aware. -/
def aiEvalCounted (t : Pos) (comps : Nat) : Except RErr (Score × Nat × Nat) :=
  match t with
  | .ended _ => .error .noMoves
  | .running s _ moves =>
    match moves with
    | [] => .error .noMoves
    | [(_, t1)] =>
      match t1 with
      | .ended d => .ok (.ended d, comps, 0)
      | .running s1 b1 ms1 => aiEvalCounted (.running s1 b1 ms1) comps
    | m1 :: m2 :: rest =>
      match scoresLoop ((m1 :: m2 :: rest).reverse)
          (initLeftover comps (m1 :: m2 :: rest).length) with
      | .error e => .error e
      | .ok (scores, leftover, consumed) =>
        (sideFold s scores).map fun sc => (sc, leftover, consumed)
termination_by sizeOf t
decreasing_by
  all_goals simp_wf
  all_goals try omega
  all_goals
    (have h1 := sizeOf_list_append rest.reverse [m2, m1]
     have h2 := sizeOf_list_reverse rest
     have h3 : sizeOf ([m2, m1] : List (Coord × Pos)) = sizeOf m2 + sizeOf m1 + 3 := by
       simp; omega
     omega)

/-- The `while let Some(coord) = moves.pop()` loop of
`ai_eval_with_leftover` (lines 176-192), processing the candidates in
reverse enumeration order: an ended child yields its exact differential
for free; a running child is a heuristic leaf when
`leftover < turns_left` and a recursive call with sub-budget
`leftover / turns_left` otherwise, the unspent part of which is
returned to `leftover`.  Also accumulates the scores in processing
order and the consumed units. -/
def scoresLoop (rev : List (Coord × Pos)) (leftover : Nat) :
    Except RErr (List Score × Nat × Nat) :=
  match rev with
  | [] => .ok ([], leftover, 0)
  | (_, child) :: rest =>
    let turnsLeft := rest.length + 1
    match child with
    | .ended d =>
      (scoresLoop rest leftover).map fun (scs, lo, cons) => (Score.ended d :: scs, lo, cons)
    | .running s1 b1 ms1 =>
      if leftover < turnsLeft then
        match heavy_eval b1 with
        | .error e => .error e
        | .ok v =>
          (scoresLoop rest leftover).map fun (scs, lo, cons) =>
            (Score.running v :: scs, lo, cons + 1)
      else
        match aiEvalCounted (.running s1 b1 ms1) (newComps leftover turnsLeft) with
        | .error e => .error e
        | .ok (sc, ret, _) =>
          (scoresLoop rest (leftover + ret - newComps leftover turnsLeft)).map
            fun (scs, lo, cons) =>
              (sc :: scs, lo, cons + (newComps leftover turnsLeft - ret))
termination_by sizeOf rev
decreasing_by
  all_goals simp_wf
  all_goals omega

end

/-- `AiPlayer::ai_eval_with_leftover` exactly as the source returns it:
the score and the unspent budget (first two components of the
instrumented version). -/
def ai_eval_with_leftover (t : Pos) (comps : Nat) : Except RErr (Score × Nat) :=
  (aiEvalCounted t comps).map fun r => (r.1, r.2.1)

/-- `AiPlayer::ai_eval` (lines 121-138): exact `Ended` differential on
an ended position; otherwise the recursive search's score with a
multiplicative jitter applied to `Running` values only.  The jitter
factor sampled from the source's unseeded `ChaChaRng` is an opaque
constant of the run, modelled as the parameter `jitter`. -/
def ai_eval (t : Pos) (comps : Nat) (jitter : ℚ) : Except RErr Score :=
  match t with
  | .ended d => .ok (.ended d)
  | .running s b ms =>
    (ai_eval_with_leftover (.running s b ms) comps).map fun r =>
      match r.1 with
      | .running v => .running (v * (1 + jitter))
      | sc => sc

/-- The derived lexicographic `Ord` on the `(Score, usize)` pairs built
by `find_best_move` (line 111). -/
def pairCmp (a b : Score × Nat) : Ordering :=
  match scoreCmp a.1 b.1 with
  | .eq => compare a.2 b.2
  | o => o

/-- `AiPlayer::find_best_move` (lines 76-119): error on an ended game
(`get_state` is `None`); the source's `unreachable!` on an empty move
list is an error; a single legal move is returned without evaluating
anything; otherwise one task per candidate is spawned in pop (reverse
enumeration) order with budget `comps / num_moves`, the results are
joined in that same order, and the `(score, index)` pairs are folded
with `Iterator::min` for Dark and `Iterator::max` for Light. -/
def find_best_move (t : Pos) (comps : Nat) (jitter : ℚ) : Except RErr Coord :=
  match t with
  | .ended _ => .error .endedGame
  | .running side _ moves =>
    match moves with
    | [] => .error .noMoves
    | [(c, _)] => .ok c
    | m1 :: m2 :: rest =>
      match (m1 :: m2 :: rest).reverse.mapM
          (fun cp => (ai_eval cp.2 (comps / (m1 :: m2 :: rest).length) jitter).map
            fun sc => (cp.1, sc)) with
      | .error e => .error e
      | .ok results =>
        let scored := results.enum.map fun p => (p.2.2, p.1)
        let best := match side with
          | .dark => rustMinBy pairCmp scored
          | .light => rustMaxBy pairCmp scored
        match best with
        | none => .error .emptyFold
        | some bi =>
          match results.get? bi.2 with
          | none => .error .badIndex
          | some r => .ok r.1

/-- The per-candidate evaluation of the leaf-fallback case of
`ai_eval_with_leftover`: an exact differential for an ended successor,
a heuristic `Running` value otherwise. -/
def leafScore (cp : Coord × Pos) : Except RErr Score :=
  match cp.2 with
  | .ended d => .ok (.ended d)
  | .running _ b1 _ => (heavy_eval b1).map .running

/-- Whether a candidate's successor position is still running. -/
def isRunningChild (cp : Coord × Pos) : Bool :=
  match cp.2 with
  | .running _ _ _ => true
  | .ended _ => false

/-- A forced-move chain: every position along it has exactly one legal
move and the final forced move ends the game with differential `d`. -/
inductive IsForcedChain : Pos → ℤ → Prop where
  | base (s : Side) (b : Board) (c : Coord) (d : ℤ) :
      IsForcedChain (.running s b [(c, .ended d)]) d
  | step (s : Side) (b : Board) (c : Coord) (p : Pos) (d : ℤ) :
      IsForcedChain p d → IsForcedChain (.running s b [(c, p)]) d

/-- A board whose every lookup fails. -/
def boardFail : Board := fun _ => .error .outOfBounds

/-- A board whose every lookup succeeds with an empty cell. -/
def boardEmpty : Board := fun _ => .ok none

/-- A two-link forced-move chain ending with differential `-2`. -/
def chain2 : Pos :=
  .running .dark boardEmpty [((2, 3), .running .light boardEmpty [((4, 5), .ended (-2))])]

/-- Four candidate moves: one ends the game at once, three lead to
running positions on the all-empty board. -/
def leaf4Moves : List (Coord × Pos) :=
  [((0, 0), .ended 3),
   ((0, 1), .running .dark boardEmpty []),
   ((0, 2), .running .dark boardEmpty []),
   ((0, 3), .running .dark boardEmpty [])]

/-- A branching position with the four candidate moves above. -/
def leaf4 : Pos := .running .light boardEmpty leaf4Moves

/-- Three candidate moves, all leading to running positions on the
all-empty board. -/
def widePosMoves : List (Coord × Pos) :=
  [((0, 0), .running .light boardEmpty []),
   ((0, 1), .running .light boardEmpty []),
   ((0, 2), .running .light boardEmpty [])]

/-- A branching position with the three candidate moves above. -/
def widePos : Pos := .running .light boardEmpty widePosMoves

/-- A position with a single legal move (one forced move) leading to
the three-way branching position `widePos`. -/
def chainWide : Pos := .running .light boardEmpty [((0, 0), widePos)]

/-- Two candidate moves whose successors are both ended with the same
differential 5: an exact tie. -/
def cex8 : Pos :=
  .running .dark boardEmpty [((0, 0), .ended 5), ((0, 1), .ended 5)]

/-- A candidate move whose successor is an ended position. -/
def endedMove (p : Coord × ℤ) : Coord × Pos := (p.1, .ended p.2)

/-- The joined task result of an ended candidate. -/
def endedResult (p : Coord × ℤ) : Coord × Score := (p.1, .ended p.2)

/-- An `(Ended, index)` pair as built by the dispatcher's score/index
fold. -/
def endedPair (p : ℤ × ℕ) : Score × ℕ := (.ended p.1, p.2)

/-- A `MoveScore` with an exact score. -/
def endedMS (p : (Nat × Nat) × ℤ) : MoveScore := ⟨.ended p.2, p.1⟩

/-- The joined result a task produces for a candidate whose successor
is an ended position (the `Running` arm is never reached on such
candidates). -/
def resultOf (cp : Coord × Pos) : Coord × Score :=
  (cp.1, match cp.2 with | .ended d => .ended d | .running _ _ _ => .running 0)

/-- The `cmp::min_by` step on `(differential, index)` pairs: switch to
the new element exactly when the accumulator compares greater. -/
def zminStep (a y : ℤ × ℕ) : ℤ × ℕ :=
  if y.1 < a.1 ∨ (a.1 = y.1 ∧ y.2 < a.2) then y else a

/-- The `cmp::max_by` step on `(differential, index)` pairs: keep the
accumulator exactly when it compares greater. -/
def zmaxStep (a y : ℤ × ℕ) : ℤ × ℕ :=
  if y.1 < a.1 ∨ (a.1 = y.1 ∧ y.2 < a.2) then a else y

lemma cellPair_error (b : Board) (c1 c2 : Coord) (w1 w2 : Nat) (e : RErr)
    (h : (cellPair b c1 c2 w1 w2).1 = .error e) :
    ∃ c ∈ (cellPair b c1 c2 w1 w2).2, b c = .error e := by
  rcases h1 : b c1 with e1 | v1
  · simp_all [cellPair]
  · rcases v1 with _ | d1
    · rcases h2 : b c2 with e2 | v2
      · simp_all [cellPair]
      · rcases v2 with _ | d2 <;> simp_all [cellPair]
    · simp_all [cellPair]

lemma cellPair_ok (b : Board) (c1 c2 : Coord) (w1 w2 : Nat)
    (h : ∀ c ∈ (cellPair b c1 c2 w1 w2).2, ∃ v, b c = .ok v) :
    ∃ p, (cellPair b c1 c2 w1 w2).1 = .ok p := by
  rcases h1 : b c1 with e1 | v1
  · exact absurd h1 (by rcases h c1 (by simp [cellPair, h1]) with ⟨v, hv⟩ <;> simp_all)
  · rcases v1 with _ | d1
    · rcases h2 : b c2 with e2 | v2
      · exact absurd h2 (by
          rcases h c2 (by simp [cellPair, h1, h2]) with ⟨v, hv⟩ <;> simp_all)
      · rcases v2 with _ | d2 <;> simp_all [cellPair]
    · simp_all [cellPair]

lemma evalCorner_error (b : Board)
    (g : Coord × Coord × Coord × Coord × Coord × Coord × Coord) (e : RErr)
    (h : (evalCorner b g).1 = .error e) :
    ∃ c ∈ (evalCorner b g).2, b c = .error e := by
  obtain ⟨corner, odd, oddCorner, even, evenCorner, counterOdd, counterEven⟩ := g
  rcases h0 : b corner with e0 | v0
  · simp_all [evalCorner]
  · rcases v0 with _ | d0
    · rcases hp1 : cellPair b odd even ODD_MALUS EVEN_BONUS with ⟨r1, t1⟩
      rcases r1 with e1 | p1
      · have := cellPair_error b odd even ODD_MALUS EVEN_BONUS e1 (by rw [hp1])
        rw [hp1] at this
        simp only [evalCorner, h0, hp1] at h ⊢
        rcases this with ⟨c, hc, hbc⟩
        exact ⟨c, by simp [hc], by simp_all⟩
      · rcases hp2 : cellPair b counterOdd counterEven ODD_MALUS EVEN_BONUS with ⟨r2, t2⟩
        rcases r2 with e2 | p2
        · have := cellPair_error b counterOdd counterEven ODD_MALUS EVEN_BONUS e2
            (by rw [hp2])
          rw [hp2] at this
          simp only [evalCorner, h0, hp1, hp2] at h ⊢
          rcases this with ⟨c, hc, hbc⟩
          exact ⟨c, by simp [hc], by simp_all⟩
        · rcases hp3 : cellPair b oddCorner evenCorner ODD_CORNER_MALUS EVEN_CORNER_BONUS
            with ⟨r3, t3⟩
          rcases r3 with e3 | p3
          · have := cellPair_error b oddCorner evenCorner ODD_CORNER_MALUS
              EVEN_CORNER_BONUS e3 (by rw [hp3])
            rw [hp3] at this
            simp only [evalCorner, h0, hp1, hp2, hp3] at h ⊢
            rcases this with ⟨c, hc, hbc⟩
            exact ⟨c, by simp [hc], by simp_all⟩
          · simp_all [evalCorner]
    · simp_all [evalCorner]

lemma evalCorner_ok (b : Board)
    (g : Coord × Coord × Coord × Coord × Coord × Coord × Coord)
    (h : ∀ c ∈ (evalCorner b g).2, ∃ v, b c = .ok v) :
    ∃ p, (evalCorner b g).1 = .ok p := by
  obtain ⟨corner, odd, oddCorner, even, evenCorner, counterOdd, counterEven⟩ := g
  rcases h0 : b corner with e0 | v0
  · exact absurd h0 (by
      rcases h corner (by simp [evalCorner, h0]) with ⟨v, hv⟩ <;> simp_all)
  · rcases v0 with _ | d0
    · rcases hp1 : cellPair b odd even ODD_MALUS EVEN_BONUS with ⟨r1, t1⟩
      rcases r1 with e1 | p1
      · exfalso
        have hmem : ∀ c ∈ t1, ∃ v, b c = .ok v := by
          intro c hc
          exact h c (by simp [evalCorner, h0, hp1, hc])
        rcases cellPair_ok b odd even ODD_MALUS EVEN_BONUS
            (by rw [hp1]; exact hmem) with ⟨p, hp⟩
        rw [hp1] at hp
        simp at hp
      · rcases hp2 : cellPair b counterOdd counterEven ODD_MALUS EVEN_BONUS with ⟨r2, t2⟩
        rcases r2 with e2 | p2
        · exfalso
          have hmem : ∀ c ∈ t2, ∃ v, b c = .ok v := by
            intro c hc
            exact h c (by simp [evalCorner, h0, hp1, hp2, hc])
          rcases cellPair_ok b counterOdd counterEven ODD_MALUS EVEN_BONUS
              (by rw [hp2]; exact hmem) with ⟨p, hp⟩
          rw [hp2] at hp
          simp at hp
        · rcases hp3 : cellPair b oddCorner evenCorner ODD_CORNER_MALUS EVEN_CORNER_BONUS
            with ⟨r3, t3⟩
          rcases r3 with e3 | p3
          · exfalso
            have hmem : ∀ c ∈ t3, ∃ v, b c = .ok v := by
              intro c hc
              exact h c (by simp [evalCorner, h0, hp1, hp2, hp3, hc])
            rcases cellPair_ok b oddCorner evenCorner ODD_CORNER_MALUS EVEN_CORNER_BONUS
                (by rw [hp3]; exact hmem) with ⟨p, hp⟩
            rw [hp3] at hp
            simp at hp
          · exact ⟨(p1.1 + p2.1 + p3.1, p1.2 + p2.2 + p3.2),
              by simp [evalCorner, h0, hp1, hp2, hp3]⟩
    · cases d0
      · exact ⟨(0, CORNER_BONUS), by simp [evalCorner, h0]⟩
      · exact ⟨(CORNER_BONUS, 0), by simp [evalCorner, h0]⟩

lemma heavyGroups_error (b : Board)
    (gs : List (Coord × Coord × Coord × Coord × Coord × Coord × Coord))
    (light dark : Nat) (e : RErr)
    (h : (heavyGroups b gs light dark).1 = .error e) :
    ∃ c ∈ (heavyGroups b gs light dark).2, b c = .error e := by
  induction gs generalizing light dark with
  | nil => simp [heavyGroups] at h
  | cons g rest ih =>
    rcases hg : evalCorner b g with ⟨rg, tg⟩
    rcases rg with eg | pg
    · have := evalCorner_error b g eg (by rw [hg])
      rw [hg] at this
      simp only [heavyGroups, hg] at h ⊢
      rcases this with ⟨c, hc, hbc⟩
      exact ⟨c, by simp [hc], by simp_all⟩
    · rcases pg with ⟨dl, dd⟩
      simp only [heavyGroups, hg] at h ⊢
      rcases ih (light + dl) (dark + dd) h with ⟨c, hc, hbc⟩
      exact ⟨c, by simp [hc], hbc⟩

lemma heavyGroups_ok (b : Board)
    (gs : List (Coord × Coord × Coord × Coord × Coord × Coord × Coord))
    (light dark : Nat)
    (h : ∀ c ∈ (heavyGroups b gs light dark).2, ∃ v, b c = .ok v) :
    ∃ q, (heavyGroups b gs light dark).1 = .ok q := by
  induction gs generalizing light dark with
  | nil =>
    exact ⟨((light : ℚ) - (dark : ℚ)) / (((dark + light : Nat) : ℚ)),
      by simp [heavyGroups]⟩
  | cons g rest ih =>
    rcases hg : evalCorner b g with ⟨rg, tg⟩
    rcases rg with eg | pg
    · exfalso
      have hmem : ∀ c ∈ tg, ∃ v, b c = .ok v := by
        intro c hc
        exact h c (by simp [heavyGroups, hg, hc])
      rcases evalCorner_ok b g (by rw [hg]; exact hmem) with ⟨p, hp⟩
      rw [hg] at hp
      simp at hp
    · rcases pg with ⟨dl, dd⟩
      rcases ih (light + dl) (dark + dd)
          (fun c hc => h c (by simp [heavyGroups, hg, hc])) with ⟨q, hq⟩
      exact ⟨q, by simp [heavyGroups, hg, hq]⟩

/-- C9: if `heavy_eval` returns an error, that error is the error of one
of the cell lookups it performed (never a default or fabricated value);
and if every cell lookup it performs succeeds, it returns a value.  So
it raises an error if and only if some performed cell lookup fails. -/
theorem c9_heavy_eval_errors (b : Board) (e : RErr) :
    (heavy_eval b = .error e → ∃ c ∈ (heavy_evalT b).2, b c = .error e) ∧
    ((∀ c ∈ (heavy_evalT b).2, ∃ v, b c = .ok v) → ∃ q, heavy_eval b = .ok q) := by
  constructor
  · intro h
    exact heavyGroups_error b heavySides 1 1 e h
  · intro h
    exact heavyGroups_ok b heavySides 1 1 h

/-- C9 witness: on the all-failing board `heavy_eval` errors and the
error is a performed lookup's error; on the all-empty board every lookup
succeeds and `heavy_eval` returns a value. -/
theorem c9_witness :
    (∃ c ∈ (heavy_evalT boardFail).2, boardFail c = .error .outOfBounds) ∧
    (∃ q, heavy_eval boardEmpty = .ok q) :=
  ⟨(c9_heavy_eval_errors boardFail .outOfBounds).1 rfl,
   (c9_heavy_eval_errors boardEmpty .outOfBounds).2 (fun c _ => ⟨none, rfl⟩)⟩

/-- C2 counterexample: the claim resolves `Running(v)` vs `Ended(d)` with
"Running wins if `d > 0`, or `d == 0` and `v > 0`"; at `v = 0`, `d = 1`
the code returns `Less` for `Running(0)` vs `Ended(1)` (and `is_better`
returns `false`), so `Ended` wins exactly where the claim says `Running`
wins. -/
theorem c2_counterexample :
    ¬(scoreCmp (.running 0) (.ended 1) = .gt ↔
        ((1 : ℤ) < 0 ∨ ((1 : ℤ) = 0 ∧ (0 : ℚ) < 0) → False) ∧ True) ∧
    scoreCmp (.running 0) (.ended 1) = .lt ∧
    Score.is_better (.running 0) (.ended 1) = false := by
  refine ⟨fun h => ?_, by decide, by decide⟩
  have : scoreCmp (.running 0) (.ended 1) = .gt := h.mpr ⟨fun hc => by omega, trivial⟩
  exact absurd this (by decide)

/-- C2 (amended): for every rational `v` and integer `d`, comparing
`Running(v)` against `Ended(d)`: `Running` wins (`Greater`) iff `d < 0`,
or `d = 0` and `v > 0`; `Ended` wins (`Less`) iff `d > 0`, or `d = 0` and
`v ≤ 0`; and the `players/mod.rs` `is_better` variant agrees, except that
`is_better(Ended(d), Running(v))` uses the strict boundary `v < 0` at
`d = 0`. -/
theorem c2_mixed_comparison_amended (v : ℚ) (d : ℤ) :
    (scoreCmp (.running v) (.ended d) = .gt ↔ (d < 0 ∨ (d = 0 ∧ 0 < v))) ∧
    (scoreCmp (.running v) (.ended d) = .lt ↔ (0 < d ∨ (d = 0 ∧ v ≤ 0))) ∧
    (Score.is_better (.running v) (.ended d) = true ↔ (d < 0 ∨ (d = 0 ∧ 0 < v))) ∧
    (Score.is_better (.ended d) (.running v) = true ↔ (0 < d ∨ (d = 0 ∧ v < 0))) := by
  have hne : Score.running v ≠ Score.ended d := by intro h; cases h
  refine ⟨?_, ?_, ?_, ?_⟩
  · simp only [scoreCmp, if_neg hne]
    rcases lt_trichotomy d 0 with h | h | h <;>
      rcases lt_trichotomy v 0 with h' | h' | h' <;>
        simp_all <;> omega
  · have hlt : scoreCmp (.running v) (.ended d) = .lt ↔ ¬(d < 0 ∨ (d = 0 ∧ 0 < v)) := by
      simp only [scoreCmp, if_neg hne]
      rcases lt_trichotomy d 0 with h | h | h <;>
        rcases lt_trichotomy v 0 with h' | h' | h' <;>
          simp_all <;> omega
    rw [hlt]
    constructor
    · intro h
      push_neg at h
      rcases lt_or_eq_of_le h.1 with h' | h'
      · exact Or.inl h'
      · exact Or.inr ⟨h'.symm, h.2 h'.symm⟩
    · intro h
      push_neg
      rcases h with h | h
      · exact ⟨le_of_lt h, fun hd => absurd hd (by omega)⟩
      · exact ⟨le_of_eq h.1.symm, fun _ => h.2⟩
  · simp only [Score.is_better]
    rcases lt_trichotomy d 0 with h | h | h <;> simp_all <;> omega
  · simp only [Score.is_better]
    rcases lt_trichotomy d 0 with h | h | h <;> simp_all <;> omega

/-- C3 counterexample: the claim states `compare(Ended(0), Running(v))`
is `Greater` iff `v ≤ 0`; at `v = 0` the left side is `Less`, so the
claimed equivalence fails. -/
theorem c3_counterexample :
    ¬(scoreCmp (.ended 0) (.running 0) = .gt ↔ (0 : ℚ) ≤ 0) := by
  intro h
  have : scoreCmp (.ended 0) (.running 0) = .gt := h.mpr le_rfl
  exact absurd this (by decide)

/-- C3 (amended): `compare(Ended(0), Running(v))` returns `Greater` iff
`v < 0` (strict); in particular against `Running(0)` it returns `Less`.
The `players/mod.rs` `is_better` variant agrees. -/
theorem c3_ended_zero_amended (v : ℚ) :
    (scoreCmp (.ended 0) (.running v) = .gt ↔ v < 0) ∧
    (Score.is_better (.ended 0) (.running v) = true ↔ v < 0) ∧
    scoreCmp (.ended 0) (.running 0) = .lt := by
  have hne : Score.ended 0 ≠ Score.running v := by intro h; cases h
  refine ⟨?_, ?_, by decide⟩
  · simp only [scoreCmp, if_neg hne]
    rcases lt_trichotomy v 0 with h | h | h <;> simp_all
  · simp [Score.is_better]

/-- C10: at the `Ended(0)` / `Running(0)` boundary both comparison
directions return `Less` (and both `is_better` directions return
`false`), so the comparison is not asymmetric: `a < b` does not imply
`b > a`. -/
theorem c10_incomparable_pair :
    scoreCmp (.ended 0) (.running 0) = .lt ∧
    scoreCmp (.running 0) (.ended 0) = .lt ∧
    Score.is_better (.ended 0) (.running 0) = false ∧
    Score.is_better (.running 0) (.ended 0) = false ∧
    ¬(∀ a b : Score, scoreCmp a b = .lt → scoreCmp b a = .gt) := by
  refine ⟨by decide, by decide, by decide, by decide, fun h => ?_⟩
  have := h (.ended 0) (.running 0) (by decide)
  exact absurd this (by decide)

end Rusthello

namespace Rusthello

/-- C5: a recursive search invoked on a forced-move chain returns the
exact `Ended` score differential together with the full unspent budget
`B`, consuming 0 units, for every initial budget `B`. -/
theorem c5_forced_chain (t : Pos) (d : ℤ) (B : Nat) (h : IsForcedChain t d) :
    aiEvalCounted t B = .ok (.ended d, B, 0) ∧
    ai_eval_with_leftover t B = .ok (.ended d, B) := by
  have h1 : aiEvalCounted t B = .ok (.ended d, B, 0) := by
    induction h with
    | base s b c d => simp [aiEvalCounted]
    | step s b c p d hp ih =>
      cases p with
      | ended d1 => cases hp
      | running s1 b1 ms1 => simp only [aiEvalCounted]; exact ih
  exact ⟨h1, by simp [ai_eval_with_leftover, h1, Except.map]⟩

/-- C5 witness: the concrete two-link forced chain with budget 7. -/
theorem c5_witness :
    aiEvalCounted chain2 7 = .ok (.ended (-2), 7, 0) ∧
    ai_eval_with_leftover chain2 7 = .ok (.ended (-2), 7) :=
  c5_forced_chain chain2 (-2) 7
    (.step _ _ _ _ _ (.base .light boardEmpty (4, 5) (-2)))

/-- C7: the dispatcher `find_best_move` fails on an ended game and on a
position with no legal moves, and with exactly one legal move it
returns that move at once, whatever the successor position is — in
particular without evaluating any score. -/
theorem c7_dispatcher_contract (d : ℤ) (comps : Nat) (jitter : ℚ) (s : Side) (b : Board)
    (c : Coord) (p : Pos) :
    find_best_move (.ended d) comps jitter = .error .endedGame ∧
    find_best_move (.running s b []) comps jitter = .error .noMoves ∧
    find_best_move (.running s b [(c, p)]) comps jitter = .ok c :=
  ⟨rfl, rfl, rfl⟩

end Rusthello

namespace Rusthello

lemma scoresLoop_zero (rev : List (Coord × Pos)) :
    scoresLoop rev 0 =
      (rev.mapM leafScore).map fun scs => (scs, 0, rev.countP isRunningChild) := by
  induction rev with
  | nil =>
    rw [List.mapM_nil]
    simp [scoresLoop, Except.map, pure, Except.pure]
  | cons cp rest ih =>
    obtain ⟨c, child⟩ := cp
    rw [List.mapM_cons]
    cases child with
    | ended d =>
      rw [show scoresLoop ((c, Pos.ended d) :: rest) 0 =
          (scoresLoop rest 0).map
            (fun r => (Score.ended d :: r.1, r.2.1, r.2.2)) from by
        simp [scoresLoop]]
      rw [ih]
      cases h : rest.mapM leafScore with
      | error e =>
        simp [leafScore, h, Except.map, Except.bind, bind, pure, Except.pure]
      | ok scs =>
        simp [leafScore, h, Except.map, Except.bind, bind, pure, Except.pure,
          List.countP_cons, isRunningChild]
    | running s1 b1 ms1 =>
      cases hh : heavy_eval b1 with
      | error e =>
        rw [show scoresLoop ((c, Pos.running s1 b1 ms1) :: rest) 0 = .error e from by
          simp [scoresLoop, hh]]
        simp [leafScore, hh, Except.map, Except.bind, bind, pure, Except.pure]
      | ok v =>
        rw [show scoresLoop ((c, Pos.running s1 b1 ms1) :: rest) 0 =
            (scoresLoop rest 0).map
              (fun r => (Score.running v :: r.1, r.2.1, r.2.2 + 1)) from by
          simp [scoresLoop, hh]]
        rw [ih]
        cases h : rest.mapM leafScore with
        | error e =>
          simp [leafScore, h, hh, Except.map, Except.bind, bind, pure, Except.pure]
        | ok scs =>
          simp [leafScore, h, hh, Except.map, Except.bind, bind, pure, Except.pure,
            List.countP_cons, isRunningChild, Nat.add_comm]

/-- C4: whenever the number of legal moves of a branching position is
at least the remaining budget `B`, the recursive search evaluates every
candidate directly with the heuristic evaluator (one unit each, `Ended`
returned for candidates whose successor is terminal), recurses into no
candidate, and exhausts the budget (leftover 0): the whole call equals
the leaf mapping of the reversed candidate list followed by the
side-aware fold. -/
theorem c4_leaf_fallback (s : Side) (b : Board) (m1 m2 : Coord × Pos)
    (rest : List (Coord × Pos)) (B : Nat)
    (hB : B ≤ (m1 :: m2 :: rest).length) :
    aiEvalCounted (.running s b (m1 :: m2 :: rest)) B =
      ((m1 :: m2 :: rest).reverse.mapM leafScore).bind
        (fun scs => (sideFold s scs).map
          fun sc => (sc, 0, (m1 :: m2 :: rest).reverse.countP isRunningChild)) := by
  have h0 : initLeftover B (m1 :: m2 :: rest).length = 0 := Nat.sub_eq_zero_of_le hB
  rw [aiEvalCounted, h0, scoresLoop_zero]
  cases h : (m1 :: m2 :: rest).reverse.mapM leafScore with
  | error e => simp [h, Except.map, Except.bind, bind]
  | ok scs =>
    simp only [h, Except.map, Except.bind, bind]

/-- C4 witness: the concrete four-move position with budget exactly 4. -/
theorem c4_witness :
    aiEvalCounted leaf4 4 =
      (((leaf4Moves).reverse.mapM leafScore).bind
        (fun scs => (sideFold .light scs).map
          fun sc => (sc, 0, (leaf4Moves).reverse.countP isRunningChild))) :=
  c4_leaf_fallback .light boardEmpty _ _ _ 4 (by simp [leaf4Moves])

end Rusthello

namespace Rusthello

/-- Budget conservation of the recursive search, proved jointly for the
search and its candidate loop: an `ok` result never returns more
leftover budget than it was given. -/
lemma leftover_le_comps :
    (∀ t B, ∀ sc lo cons, aiEvalCounted t B = .ok (sc, lo, cons) → lo ≤ B) ∧
    (∀ rev lo0, ∀ scs lo cons, scoresLoop rev lo0 = .ok (scs, lo, cons) → lo ≤ lo0) := by
  refine aiEvalCounted.mutual_induct
    (fun t B => ∀ sc lo cons, aiEvalCounted t B = .ok (sc, lo, cons) → lo ≤ B)
    (fun rev lo0 => ∀ scs lo cons, scoresLoop rev lo0 = .ok (scs, lo, cons) → lo ≤ lo0)
    ?_ ?_ ?_ ?_ ?_ ?_ ?_ ?_ ?_ ?_ ?_ ?_
  · intro B d sc lo cons h
    simp [aiEvalCounted] at h
  · intro B s1 b1 sc lo cons h
    simp [aiEvalCounted] at h
  · intro B s1 b1 c d sc lo cons h
    simp [aiEvalCounted] at h
    omega
  · intro B s1 b1 c s2 b2 ms2 ih sc lo cons h
    simp only [aiEvalCounted] at h
    exact ih sc lo cons h
  · intro B s1 b1 m1 m2 rest e herr ih sc lo cons h
    simp only [aiEvalCounted] at h
    rw [herr] at h
    simp at h
  · intro B s1 b1 m1 m2 rest scores leftover consumed hok ih sc lo cons h
    simp only [aiEvalCounted] at h
    rw [hok] at h
    simp at h
    have hlel : leftover ≤ initLeftover B (m1 :: m2 :: rest).length :=
      ih scores leftover consumed hok
    have hle : initLeftover B (m1 :: m2 :: rest).length ≤ B := Nat.sub_le _ _
    cases hsf : sideFold s1 scores with
    | error e => rw [hsf] at h; simp [Except.map] at h
    | ok sc0 =>
      rw [hsf] at h
      simp [Except.map] at h
      obtain ⟨h1, h2, h3⟩ := h
      omega
  · intro lo0 scs lo cons h
    simp [scoresLoop] at h
    omega
  · intro lo0 c rest d ih scs lo cons h
    simp only [scoresLoop] at h
    cases hr : scoresLoop rest lo0 with
    | error e => rw [hr] at h; simp [Except.map] at h
    | ok r =>
      obtain ⟨r1, r2, r3⟩ := r
      rw [hr] at h
      simp [Except.map] at h
      have := ih r1 r2 r3 hr
      obtain ⟨h1, h2, h3⟩ := h
      omega
  · intro lo0 c rest tl s1 b1 ms1 hlt e hherr scs lo cons h
    have hlt1 : lo0 < rest.length + 1 := hlt
    simp only [scoresLoop] at h
    rw [if_pos hlt1, hherr] at h
    simp at h
  · intro lo0 c rest tl s1 b1 ms1 hlt v hhok ih scs lo cons h
    have hlt1 : lo0 < rest.length + 1 := hlt
    simp only [scoresLoop] at h
    rw [if_pos hlt1, hhok] at h
    simp at h
    cases hr : scoresLoop rest lo0 with
    | error e => rw [hr] at h; simp [Except.map] at h
    | ok r =>
      obtain ⟨r1, r2, r3⟩ := r
      rw [hr] at h
      simp [Except.map] at h
      have := ih r1 r2 r3 hr
      obtain ⟨h1, h2, h3⟩ := h
      omega
  · intro lo0 c rest tl s1 b1 ms1 hge e hrec ihu scs lo cons h
    have hge1 : ¬lo0 < rest.length + 1 := hge
    have hrec1 : aiEvalCounted (.running s1 b1 ms1)
        (newComps lo0 (rest.length + 1)) = .error e := hrec
    simp only [scoresLoop] at h
    rw [if_neg hge1, hrec1] at h
    simp at h
  · intro lo0 c rest tl s1 b1 ms1 hge sc0 ret cons0 hrec ih1 ih2 scs lo cons h
    have hge1 : ¬lo0 < rest.length + 1 := hge
    have hrec1 : aiEvalCounted (.running s1 b1 ms1)
        (newComps lo0 (rest.length + 1)) = .ok (sc0, ret, cons0) := hrec
    have ih21 : ∀ scs lo cons,
        scoresLoop rest (lo0 + ret - newComps lo0 (rest.length + 1)) =
          .ok (scs, lo, cons) → lo ≤ lo0 + ret - newComps lo0 (rest.length + 1) := ih2
    simp only [scoresLoop] at h
    rw [if_neg hge1, hrec1] at h
    simp at h
    cases hr : scoresLoop rest (lo0 + ret - newComps lo0 (rest.length + 1)) with
    | error e => rw [hr] at h; simp [Except.map] at h
    | ok r =>
      obtain ⟨r1, r2, r3⟩ := r
      rw [hr] at h
      simp [Except.map] at h
      have hret : ret ≤ newComps lo0 (rest.length + 1) := ih1 sc0 ret cons0 hrec1
      have hnc : newComps lo0 (rest.length + 1) ≤ lo0 := Nat.div_le_self _ _
      have := ih21 r1 r2 r3 hr
      obtain ⟨h1, h2, h3⟩ := h
      omega


/-- The candidate loop's consumption invariant: leftover plus consumed
units never exceed the initial leftover plus one unit per candidate. -/
lemma scoresLoop_consumed (rev : List (Coord × Pos)) :
    ∀ lo0 scs lo cons, scoresLoop rev lo0 = .ok (scs, lo, cons) →
      lo + cons ≤ lo0 + rev.length := by
  induction rev with
  | nil =>
    intro lo0 scs lo cons h
    simp [scoresLoop] at h
    omega
  | cons cp rest ih =>
    obtain ⟨c, child⟩ := cp
    intro lo0 scs lo cons h
    cases child with
    | ended d =>
      simp only [scoresLoop] at h
      cases hr : scoresLoop rest lo0 with
      | error e => rw [hr] at h; simp [Except.map] at h
      | ok r =>
        obtain ⟨r1, r2, r3⟩ := r
        rw [hr] at h
        simp [Except.map] at h
        have := ih lo0 r1 r2 r3 hr
        obtain ⟨h1, h2, h3⟩ := h
        simp only [List.length_cons]
        omega
    | running s1 b1 ms1 =>
      by_cases hlt : lo0 < rest.length + 1
      · simp only [scoresLoop] at h
        rw [if_pos hlt] at h
        cases hh : heavy_eval b1 with
        | error e => rw [hh] at h; simp at h
        | ok v =>
          rw [hh] at h
          simp at h
          cases hr : scoresLoop rest lo0 with
          | error e => rw [hr] at h; simp [Except.map] at h
          | ok r =>
            obtain ⟨r1, r2, r3⟩ := r
            rw [hr] at h
            simp [Except.map] at h
            have := ih lo0 r1 r2 r3 hr
            obtain ⟨h1, h2, h3⟩ := h
            simp only [List.length_cons]
            omega
      · simp only [scoresLoop] at h
        rw [if_neg hlt] at h
        cases hrec : aiEvalCounted (.running s1 b1 ms1)
            (newComps lo0 (rest.length + 1)) with
        | error e => rw [hrec] at h; simp at h
        | ok r0 =>
          obtain ⟨sc0, ret, cons0⟩ := r0
          rw [hrec] at h
          simp at h
          cases hr : scoresLoop rest (lo0 + ret - newComps lo0 (rest.length + 1)) with
          | error e => rw [hr] at h; simp [Except.map] at h
          | ok r =>
            obtain ⟨r1, r2, r3⟩ := r
            rw [hr] at h
            simp [Except.map] at h
            have hih := ih _ r1 r2 r3 hr
            have hret : ret ≤ newComps lo0 (rest.length + 1) :=
              leftover_le_comps.1 _ _ _ _ _ hrec
            have hnc : newComps lo0 (rest.length + 1) ≤ lo0 := Nat.div_le_self _ _
            obtain ⟨h1, h2, h3⟩ := h
            simp only [List.length_cons]
            omega

/-- The heuristic score of the all-empty board. -/
lemma heavy_eval_boardEmpty : heavy_eval boardEmpty = .ok 0 := by
  norm_num [heavy_eval, heavy_evalT, heavyGroups, heavySides, evalCorner, cellPair,
    boardEmpty]

/-- The search on `widePos` with budget 3 (= its move count): three
heuristic leaf evaluations, no leftover. -/
lemma aiEvalCounted_widePos3 : aiEvalCounted widePos 3 = .ok (.running 0, 0, 3) := by
  rw [widePos, widePosMoves]
  simp [aiEvalCounted, scoresLoop, heavy_eval_boardEmpty, Except.map, sideFold,
    rustMaxBy, scoreCmp, initLeftover]

/-- The search on `chainWide` with budget 2: the forced move is free,
then the three-way branch performs three heuristic leaf evaluations. -/
lemma aiEvalCounted_chainWide : aiEvalCounted chainWide 2 = .ok (.running 0, 0, 3) := by
  have h1 : aiEvalCounted chainWide 2 = aiEvalCounted widePos 2 := by
    rw [chainWide, widePos]
    simp only [aiEvalCounted]
  rw [h1, widePos, widePosMoves]
  simp [aiEvalCounted, scoresLoop, heavy_eval_boardEmpty, Except.map, sideFold,
    rustMaxBy, scoreCmp, initLeftover]

/-- C1 (amended): the leftover budget every `ok` search result returns
is at most the budget `B` it was given; and whenever the branching
position (the position on which the candidate loop actually runs, after
the free forced-move chain) has `k` legal moves with `k ≤ B`, the units
consumed in the claims' accounting — one per direct heuristic leaf
evaluation plus the units each recursive child retains — together with
the returned leftover never exceed `B`, so consumed units are at most
`B` minus the leftover.  (As stated, with `k` counted at the original
call and spent units counted recursively, the claim fails — see the
counterexample.) -/
theorem c1_budget_conservation_amended :
    (∀ t B sc lo, ai_eval_with_leftover t B = .ok (sc, lo) → lo ≤ B) ∧
    (∀ s b m1 m2 rest B sc lo cons,
      (m1 :: m2 :: rest).length ≤ B →
      aiEvalCounted (.running s b (m1 :: m2 :: rest)) B = .ok (sc, lo, cons) →
      lo + cons ≤ B ∧ cons ≤ B - lo) := by
  constructor
  · intro t B sc lo h
    simp only [ai_eval_with_leftover] at h
    cases hc : aiEvalCounted t B with
    | error e => rw [hc] at h; simp [Except.map] at h
    | ok r =>
      obtain ⟨sc0, lo0, cons0⟩ := r
      rw [hc] at h
      simp [Except.map] at h
      have := leftover_le_comps.1 t B sc0 lo0 cons0 hc
      omega
  · intro s b m1 m2 rest B sc lo cons hlen h
    simp only [aiEvalCounted] at h
    cases hsl : scoresLoop ((m1 :: m2 :: rest).reverse)
        (initLeftover B (m1 :: m2 :: rest).length) with
    | error e => rw [hsl] at h; simp at h
    | ok r =>
      obtain ⟨scores, lo1, cons1⟩ := r
      rw [hsl] at h
      simp at h
      cases hsf : sideFold s scores with
      | error e => rw [hsf] at h; simp [Except.map] at h
      | ok sc0 =>
        rw [hsf] at h
        simp [Except.map] at h
        obtain ⟨h1, h2, h3⟩ := h
        have hcons := scoresLoop_consumed _ _ _ _ _ hsl
        rw [List.length_reverse] at hcons
        have hinit : initLeftover B (m1 :: m2 :: rest).length =
            B - (m1 :: m2 :: rest).length := rfl
        omega

/-- C1 witness: `chainWide` with budget 2 for the unconditional leftover
bound, and `widePos` with budget 3 (three legal moves, `k ≤ B`) for the
consumption bound. -/
theorem c1_witness :
    ((0 : Nat) ≤ 2) ∧ (0 + 3 ≤ 3 ∧ 3 ≤ 3 - 0) := by
  constructor
  · refine c1_budget_conservation_amended.1 chainWide 2 (.running 0) 0 ?_
    rw [ai_eval_with_leftover, aiEvalCounted_chainWide]
    rfl
  · refine c1_budget_conservation_amended.2 .light boardEmpty
      ((0, 0), .running .light boardEmpty []) ((0, 1), .running .light boardEmpty [])
      [((0, 2), .running .light boardEmpty [])] 3 (.running 0) 0 3 (by simp) ?_
    show aiEvalCounted widePos 3 = .ok (.running 0, 0, 3)
    exact aiEvalCounted_widePos3

/-- C1 counterexample: the claim as stated fails on `chainWide`, a call
on a position with `k = 1 < B = 2` legal moves whose forced move leads
to a three-way branch: the subtree performs 3 heuristic leaf
evaluations, exceeding both `B = 2` and `B` minus the returned
leftover 0. -/
theorem c1_counterexample :
    ([((0, 0), widePos)] : List (Coord × Pos)).length < 2 ∧
    aiEvalCounted chainWide 2 = .ok (.running 0, 0, 3) ∧
    ¬(3 ≤ 2) ∧ ¬(3 ≤ 2 - 0) :=
  ⟨by simp, aiEvalCounted_chainWide, by omega, by omega⟩

/-- C6: allocator arithmetic safety.  The initial
`leftover = comps.checked_sub(len).unwrap_or(0)` is never negative (it
is the saturating difference `max (B - k) 0`); whenever the remaining
candidate count is positive and at most `leftover`, the allocated
sub-budget `new_budget = leftover / turns_left` is at least 1; and for
every state of the candidate loop the update
`leftover + returned - new_budget` after a recursive child cannot
underflow: the subtrahend is at most the minuend, so the unsigned
subtraction agrees with exact integer subtraction and stays
non-negative. -/
theorem c6_allocator_safety :
    (∀ B k, 0 ≤ (initLeftover B k : ℤ) ∧
      (initLeftover B k : ℤ) = max ((B : ℤ) - (k : ℤ)) 0) ∧
    (∀ lo tl, 0 < tl → tl ≤ lo → 1 ≤ newComps lo tl) ∧
    (∀ lo tl child sc ret cons, 0 < tl →
      aiEvalCounted child (newComps lo tl) = .ok (sc, ret, cons) →
      newComps lo tl ≤ lo + ret ∧
      ((lo : ℤ) + (ret : ℤ) - (newComps lo tl : ℤ) =
        ((lo + ret - newComps lo tl : Nat) : ℤ))) := by
  refine ⟨?_, ?_, ?_⟩
  · intro B k
    constructor
    · exact Int.ofNat_nonneg _
    · simp only [initLeftover]
      omega
  · intro lo tl htl hle
    exact (Nat.one_le_div_iff htl).mpr hle
  · intro lo tl child sc ret cons htl hrec
    have hnc : newComps lo tl ≤ lo := Nat.div_le_self _ _
    have h1 : newComps lo tl ≤ lo + ret := le_trans hnc (Nat.le_add_right _ _)
    exact ⟨h1, by omega⟩

/-- C6 witness: initialization with budget 5 and 3 moves; allocation
with leftover 4 and 2 candidates left (sub-budget `4 / 2 = 2 ≥ 1`); and
the post-child update with a concrete recursive child returning its
whole sub-budget. -/
theorem c6_witness :
    (0 ≤ (initLeftover 5 3 : ℤ) ∧
      (initLeftover 5 3 : ℤ) = max ((5 : ℤ) - (3 : ℤ)) 0) ∧
    1 ≤ newComps 4 2 ∧
    (newComps 4 2 ≤ 4 + 2 ∧
      ((4 : ℤ) + (2 : ℤ) - (newComps 4 2 : ℤ) =
        ((4 + 2 - newComps 4 2 : Nat) : ℤ))) :=
  ⟨c6_allocator_safety.1 5 3,
   c6_allocator_safety.2.1 4 2 (by decide) (by decide),
   c6_allocator_safety.2.2 4 2 (.running .light boardEmpty [((0, 0), .ended 0)])
     (.ended 0) 2 0 (by decide) (by simp [aiEvalCounted, newComps])⟩

/-- C8 counterexample: on a Dark-to-move root with two tied candidates
(`Ended(5)` each, enumerated `(0,0)` before `(0,1)`), `find_best_move`
returns `(0,1)` — the last-enumerated tied move, not the
first-encountered best in enumeration order; the fold of
`players/mod.rs` does the same for Dark. -/
theorem c8_counterexample :
    find_best_move cex8 10 0 = .ok (0, 1) ∧ ((0, 1) : Coord) ≠ (0, 0) ∧
    foldBest [⟨.ended 5, (0, 0)⟩, ⟨.ended 5, (0, 1)⟩] .dark =
      some ⟨.ended 5, (0, 1)⟩ :=
  ⟨rfl, by decide, rfl⟩

/-- `mapM` over `Except` succeeds pointwise. -/
lemma mapM_ok_of_forall {α β : Type} (l : List α) (f : α → Except RErr β) (g : α → β)
    (h : ∀ x ∈ l, f x = .ok (g x)) : l.mapM f = .ok (l.map g) := by
  induction l with
  | nil => rw [List.mapM_nil]; rfl
  | cons a t ih =>
    rw [List.mapM_cons, h a (by simp), ih (fun x hx => h x (by simp [hx]))]
    rfl

/-- The derived tuple order on `(Ended, index)` pairs compares greater
exactly on the lexicographic strict order. -/
lemma pairCmp_endedPair_gt (a y : ℤ × ℕ) :
    (pairCmp (endedPair a) (endedPair y) = .gt) ↔
      (y.1 < a.1 ∨ (a.1 = y.1 ∧ y.2 < a.2)) := by
  obtain ⟨d1, i1⟩ := a
  obtain ⟨d2, i2⟩ := y
  by_cases hd : d1 = d2
  · subst hd
    simp [endedPair, pairCmp, scoreCmp, Nat.compare_eq_gt]
  · by_cases h2 : d2 < d1
    · simp [endedPair, pairCmp, scoreCmp, hd, h2]
    · simp [endedPair, pairCmp, scoreCmp, hd, h2]

/-- A left fold that replaces its accumulator exactly when the new
element's key is strictly smaller keeps the first minimum: the list
splits around the result, with strictly larger keys before it and no
smaller key after it. -/
lemma foldl_keepFirstMin_split {α : Type} (k : α → ℤ) :
    ∀ (t : List α) (x : α),
      ∃ pre post,
        x :: t = pre ++ (t.foldl (fun a y => if k y < k a then y else a) x) :: post ∧
        (∀ y ∈ pre, k (t.foldl (fun a y => if k y < k a then y else a) x) < k y) ∧
        (∀ y ∈ post, k (t.foldl (fun a y => if k y < k a then y else a) x) ≤ k y) := by
  intro t
  induction t with
  | nil =>
    intro x
    exact ⟨[], [], rfl, by simp, by simp⟩
  | cons y t ih =>
    intro x
    simp only [List.foldl_cons]
    by_cases hc : k y < k x
    · rw [if_pos hc]
      obtain ⟨pre, post, hs, hpre, hpost⟩ := ih y
      have hry : k (t.foldl (fun a y => if k y < k a then y else a) y) ≤ k y := by
        rcases pre with _ | ⟨z0, pre1⟩
        · obtain ⟨h0, -⟩ : y = t.foldl (fun a y => if k y < k a then y else a) y ∧
              t = post := by simpa using hs
          rw [← h0]
        · obtain ⟨h0, -⟩ : y = z0 ∧
              t = pre1 ++ (t.foldl (fun a y => if k y < k a then y else a) y) :: post := by
            simpa using hs
          have h1 := hpre z0 (List.mem_cons_self _ _)
          rw [← h0] at h1
          omega
      refine ⟨x :: pre, post, ?_, ?_, hpost⟩
      · rw [List.cons_append, ← hs]
      · intro z hz
        rcases List.mem_cons.mp hz with rfl | hz1
        · omega
        · exact hpre z hz1
    · rw [if_neg hc]
      obtain ⟨pre, post, hs, hpre, hpost⟩ := ih x
      rcases pre with _ | ⟨z0, pre1⟩
      · obtain ⟨h1, h2⟩ : x = t.foldl (fun a y => if k y < k a then y else a) x ∧
            t = post := by simpa using hs
        refine ⟨[], y :: post, ?_, by simp, ?_⟩
        · rw [List.nil_append, ← h1, ← h2]
        · intro z hz
          rcases List.mem_cons.mp hz with rfl | hz1
          · rw [← h1]
            omega
          · exact hpost z hz1
      · obtain ⟨h1, h2⟩ : x = z0 ∧
            t = pre1 ++ (t.foldl (fun a y => if k y < k a then y else a) x) :: post := by
          simpa using hs
        have hx : k (t.foldl (fun a y => if k y < k a then y else a) x) < k x := by
          have := hpre z0 (List.mem_cons_self _ _)
          rw [← h1] at this
          omega
        refine ⟨x :: y :: pre1, post, ?_, ?_, hpost⟩
        · rw [List.cons_append, List.cons_append, ← h2]
        · intro z hz
          rcases List.mem_cons.mp hz with rfl | hz1
          · omega
          · rcases List.mem_cons.mp hz1 with rfl | hz2
            · omega
            · exact hpre z (List.mem_cons_of_mem _ hz2)

/-- A left fold that replaces its accumulator exactly when the new
element's key is strictly larger keeps the first maximum. -/
lemma foldl_keepFirstMax_split {α : Type} (k : α → ℤ) :
    ∀ (t : List α) (x : α),
      ∃ pre post,
        x :: t = pre ++ (t.foldl (fun a y => if k a < k y then y else a) x) :: post ∧
        (∀ y ∈ pre, k y < k (t.foldl (fun a y => if k a < k y then y else a) x)) ∧
        (∀ y ∈ post, k y ≤ k (t.foldl (fun a y => if k a < k y then y else a) x)) := by
  intro t
  induction t with
  | nil =>
    intro x
    exact ⟨[], [], rfl, by simp, by simp⟩
  | cons y t ih =>
    intro x
    simp only [List.foldl_cons]
    by_cases hc : k x < k y
    · rw [if_pos hc]
      obtain ⟨pre, post, hs, hpre, hpost⟩ := ih y
      have hry : k y ≤ k (t.foldl (fun a y => if k a < k y then y else a) y) := by
        rcases pre with _ | ⟨z0, pre1⟩
        · obtain ⟨h0, -⟩ : y = t.foldl (fun a y => if k a < k y then y else a) y ∧
              t = post := by simpa using hs
          rw [← h0]
        · obtain ⟨h0, -⟩ : y = z0 ∧
              t = pre1 ++ (t.foldl (fun a y => if k a < k y then y else a) y) :: post := by
            simpa using hs
          have h1 := hpre z0 (List.mem_cons_self _ _)
          rw [← h0] at h1
          omega
      refine ⟨x :: pre, post, ?_, ?_, hpost⟩
      · rw [List.cons_append, ← hs]
      · intro z hz
        rcases List.mem_cons.mp hz with rfl | hz1
        · omega
        · exact hpre z hz1
    · rw [if_neg hc]
      obtain ⟨pre, post, hs, hpre, hpost⟩ := ih x
      rcases pre with _ | ⟨z0, pre1⟩
      · obtain ⟨h1, h2⟩ : x = t.foldl (fun a y => if k a < k y then y else a) x ∧
            t = post := by simpa using hs
        refine ⟨[], y :: post, ?_, by simp, ?_⟩
        · rw [List.nil_append, ← h1, ← h2]
        · intro z hz
          rcases List.mem_cons.mp hz with rfl | hz1
          · rw [← h1]
            omega
          · exact hpost z hz1
      · obtain ⟨h1, h2⟩ : x = z0 ∧
            t = pre1 ++ (t.foldl (fun a y => if k a < k y then y else a) x) :: post := by
          simpa using hs
        have hx : k x < k (t.foldl (fun a y => if k a < k y then y else a) x) := by
          have := hpre z0 (List.mem_cons_self _ _)
          rw [← h1] at this
          omega
        refine ⟨x :: y :: pre1, post, ?_, ?_, hpost⟩
        · rw [List.cons_append, List.cons_append, ← h2]
        · intro z hz
          rcases List.mem_cons.mp hz with rfl | hz1
          · omega
          · rcases List.mem_cons.mp hz1 with rfl | hz2
            · omega
            · exact hpre z (List.mem_cons_of_mem _ hz2)

/-- A left fold that replaces its accumulator exactly when the new
element's key is smaller or equal keeps the last minimum. -/
lemma foldl_keepLastMin_split {α : Type} (k : α → ℤ) :
    ∀ (t : List α) (x : α),
      ∃ pre post,
        x :: t = pre ++ (t.foldl (fun a y => if k y ≤ k a then y else a) x) :: post ∧
        (∀ y ∈ pre, k (t.foldl (fun a y => if k y ≤ k a then y else a) x) ≤ k y) ∧
        (∀ y ∈ post, k (t.foldl (fun a y => if k y ≤ k a then y else a) x) < k y) := by
  intro t
  induction t with
  | nil =>
    intro x
    exact ⟨[], [], rfl, by simp, by simp⟩
  | cons y t ih =>
    intro x
    simp only [List.foldl_cons]
    by_cases hc : k y ≤ k x
    · rw [if_pos hc]
      obtain ⟨pre, post, hs, hpre, hpost⟩ := ih y
      have hry : k (t.foldl (fun a y => if k y ≤ k a then y else a) y) ≤ k y := by
        rcases pre with _ | ⟨z0, pre1⟩
        · obtain ⟨h0, -⟩ : y = t.foldl (fun a y => if k y ≤ k a then y else a) y ∧
              t = post := by simpa using hs
          rw [← h0]
        · obtain ⟨h0, -⟩ : y = z0 ∧
              t = pre1 ++ (t.foldl (fun a y => if k y ≤ k a then y else a) y) :: post := by
            simpa using hs
          have h1 := hpre z0 (List.mem_cons_self _ _)
          rw [← h0] at h1
          omega
      refine ⟨x :: pre, post, ?_, ?_, hpost⟩
      · rw [List.cons_append, ← hs]
      · intro z hz
        rcases List.mem_cons.mp hz with rfl | hz1
        · omega
        · exact hpre z hz1
    · rw [if_neg hc]
      obtain ⟨pre, post, hs, hpre, hpost⟩ := ih x
      rcases pre with _ | ⟨z0, pre1⟩
      · obtain ⟨h1, h2⟩ : x = t.foldl (fun a y => if k y ≤ k a then y else a) x ∧
            t = post := by simpa using hs
        refine ⟨[], y :: post, ?_, by simp, ?_⟩
        · rw [List.nil_append, ← h1, ← h2]
        · intro z hz
          rcases List.mem_cons.mp hz with rfl | hz1
          · rw [← h1]
            omega
          · exact hpost z hz1
      · obtain ⟨h1, h2⟩ : x = z0 ∧
            t = pre1 ++ (t.foldl (fun a y => if k y ≤ k a then y else a) x) :: post := by
          simpa using hs
        have hx : k (t.foldl (fun a y => if k y ≤ k a then y else a) x) ≤ k x := by
          have := hpre z0 (List.mem_cons_self _ _)
          rw [← h1] at this
          omega
        refine ⟨x :: y :: pre1, post, ?_, ?_, hpost⟩
        · rw [List.cons_append, List.cons_append, ← h2]
        · intro z hz
          rcases List.mem_cons.mp hz with rfl | hz1
          · omega
          · rcases List.mem_cons.mp hz1 with rfl | hz2
            · omega
            · exact hpre z (List.mem_cons_of_mem _ hz2)

/-- A left fold that replaces its accumulator exactly when the new
element's key is larger or equal keeps the last maximum. -/
lemma foldl_keepLastMax_split {α : Type} (k : α → ℤ) :
    ∀ (t : List α) (x : α),
      ∃ pre post,
        x :: t = pre ++ (t.foldl (fun a y => if k a ≤ k y then y else a) x) :: post ∧
        (∀ y ∈ pre, k y ≤ k (t.foldl (fun a y => if k a ≤ k y then y else a) x)) ∧
        (∀ y ∈ post, k y < k (t.foldl (fun a y => if k a ≤ k y then y else a) x)) := by
  intro t
  induction t with
  | nil =>
    intro x
    exact ⟨[], [], rfl, by simp, by simp⟩
  | cons y t ih =>
    intro x
    simp only [List.foldl_cons]
    by_cases hc : k x ≤ k y
    · rw [if_pos hc]
      obtain ⟨pre, post, hs, hpre, hpost⟩ := ih y
      have hry : k y ≤ k (t.foldl (fun a y => if k a ≤ k y then y else a) y) := by
        rcases pre with _ | ⟨z0, pre1⟩
        · obtain ⟨h0, -⟩ : y = t.foldl (fun a y => if k a ≤ k y then y else a) y ∧
              t = post := by simpa using hs
          rw [← h0]
        · obtain ⟨h0, -⟩ : y = z0 ∧
              t = pre1 ++ (t.foldl (fun a y => if k a ≤ k y then y else a) y) :: post := by
            simpa using hs
          have h1 := hpre z0 (List.mem_cons_self _ _)
          rw [← h0] at h1
          omega
      refine ⟨x :: pre, post, ?_, ?_, hpost⟩
      · rw [List.cons_append, ← hs]
      · intro z hz
        rcases List.mem_cons.mp hz with rfl | hz1
        · omega
        · exact hpre z hz1
    · rw [if_neg hc]
      obtain ⟨pre, post, hs, hpre, hpost⟩ := ih x
      rcases pre with _ | ⟨z0, pre1⟩
      · obtain ⟨h1, h2⟩ : x = t.foldl (fun a y => if k a ≤ k y then y else a) x ∧
            t = post := by simpa using hs
        refine ⟨[], y :: post, ?_, by simp, ?_⟩
        · rw [List.nil_append, ← h1, ← h2]
        · intro z hz
          rcases List.mem_cons.mp hz with rfl | hz1
          · rw [← h1]
            omega
          · exact hpost z hz1
      · obtain ⟨h1, h2⟩ : x = z0 ∧
            t = pre1 ++ (t.foldl (fun a y => if k a ≤ k y then y else a) x) :: post := by
          simpa using hs
        have hx : k x ≤ k (t.foldl (fun a y => if k a ≤ k y then y else a) x) := by
          have := hpre z0 (List.mem_cons_self _ _)
          rw [← h1] at this
          omega
        refine ⟨x :: y :: pre1, post, ?_, ?_, hpost⟩
        · rw [List.cons_append, List.cons_append, ← h2]
        · intro z hz
          rcases List.mem_cons.mp hz with rfl | hz1
          · omega
          · rcases List.mem_cons.mp hz1 with rfl | hz2
            · omega
            · exact hpre z (List.mem_cons_of_mem _ hz2)

/-- `foldBest` on a non-empty result list is the fold of the tail over
the head with the side-aware replace-if-better step. -/
lemma foldBest_cons (side : Side) (x : MoveScore) (l : List MoveScore) :
    foldBest (x :: l) side =
      some (l.foldl
        (fun old new => if MoveScore.is_better_for new old side then new else old) x) := by
  suffices h : ∀ (l : List MoveScore) (x : MoveScore),
      List.foldl
        (fun best new =>
          match best with
          | none => some new
          | some old =>
            if MoveScore.is_better_for new old side then some new else some old)
        (some x) l =
      some (l.foldl
        (fun old new => if MoveScore.is_better_for new old side then new else old) x) by
    simpa [foldBest] using h l x
  intro l
  induction l with
  | nil => intro x; rfl
  | cons y t ih =>
    intro x
    by_cases h : MoveScore.is_better_for y x side = true
    · have h2 : (if MoveScore.is_better_for y x side then y else x) = y := if_pos h
      simp only [List.foldl_cons, h2]
      simp [h]
      exact ih y
    · have h2 : (if MoveScore.is_better_for y x side then y else x) = x := if_neg h
      simp only [List.foldl_cons, h2]
      simp [h]
      exact ih x

/-- The Light fold over exact `MoveScore`s is the key fold on the
differentials: replace exactly when the new differential is strictly
larger. -/
lemma foldl_light_endedMS (l : List ((Nat × Nat) × ℤ)) :
    ∀ x, (l.map endedMS).foldl
        (fun old new => if MoveScore.is_better_for new old .light then new else old)
        (endedMS x) =
      endedMS (l.foldl (fun a y => if a.2 < y.2 then y else a) x) := by
  induction l with
  | nil => intro x; rfl
  | cons y t ih =>
    intro x
    simp only [List.map_cons, List.foldl_cons]
    rw [show (if MoveScore.is_better_for (endedMS y) (endedMS x) .light then endedMS y
        else endedMS x) = endedMS (if x.2 < y.2 then y else x) from by
      by_cases h : x.2 < y.2 <;>
        simp [MoveScore.is_better_for, Score.is_better, endedMS, h]]
    exact ih _

/-- The Dark fold over exact `MoveScore`s is the key fold on the
differentials: replace exactly when the new differential is smaller or
equal (`!is_better` replaces on exact ties). -/
lemma foldl_dark_endedMS (l : List ((Nat × Nat) × ℤ)) :
    ∀ x, (l.map endedMS).foldl
        (fun old new => if MoveScore.is_better_for new old .dark then new else old)
        (endedMS x) =
      endedMS (l.foldl (fun a y => if y.2 ≤ a.2 then y else a) x) := by
  induction l with
  | nil => intro x; rfl
  | cons y t ih =>
    intro x
    simp only [List.map_cons, List.foldl_cons]
    rw [show (if MoveScore.is_better_for (endedMS y) (endedMS x) .dark then endedMS y
        else endedMS x) = endedMS (if y.2 ≤ x.2 then y else x) from by
      by_cases h : y.2 ≤ x.2 <;>
        simp [MoveScore.is_better_for, Score.is_better, endedMS, h, not_le.mpr, not_lt.mpr]]
    exact ih _

/-- The `Iterator::min` fold over `(Ended, index)` pairs is the
`zminStep` fold on `(differential, index)` pairs. -/
lemma foldl_min_endedPair (t : List (ℤ × ℕ)) :
    ∀ x, (t.map endedPair).foldl
        (fun acc y => if pairCmp acc y = .gt then y else acc) (endedPair x) =
      endedPair (t.foldl zminStep x) := by
  induction t with
  | nil => intro x; rfl
  | cons y t ih =>
    intro x
    simp only [List.map_cons, List.foldl_cons]
    rw [show (if pairCmp (endedPair x) (endedPair y) = .gt then endedPair y
        else endedPair x) = endedPair (zminStep x y) from by
      by_cases h : y.1 < x.1 ∨ (x.1 = y.1 ∧ y.2 < x.2)
      · rw [if_pos ((pairCmp_endedPair_gt x y).mpr h)]
        simp only [zminStep, if_pos h]
      · rw [if_neg (fun hc => h ((pairCmp_endedPair_gt x y).mp hc))]
        simp only [zminStep, if_neg h]]
    exact ih _

/-- The `Iterator::max` fold over `(Ended, index)` pairs is the
`zmaxStep` fold on `(differential, index)` pairs. -/
lemma foldl_max_endedPair (t : List (ℤ × ℕ)) :
    ∀ x, (t.map endedPair).foldl
        (fun acc y => if pairCmp acc y = .gt then acc else y) (endedPair x) =
      endedPair (t.foldl zmaxStep x) := by
  induction t with
  | nil => intro x; rfl
  | cons y t ih =>
    intro x
    simp only [List.map_cons, List.foldl_cons]
    rw [show (if pairCmp (endedPair x) (endedPair y) = .gt then endedPair x
        else endedPair y) = endedPair (zmaxStep x y) from by
      by_cases h : y.1 < x.1 ∨ (x.1 = y.1 ∧ y.2 < x.2)
      · rw [if_pos ((pairCmp_endedPair_gt x y).mpr h)]
        simp only [zmaxStep, if_pos h]
      · rw [if_neg (fun hc => h ((pairCmp_endedPair_gt x y).mp hc))]
        simp only [zmaxStep, if_neg h]]
    exact ih _

/-- Under strictly increasing indices, the `zminStep` fold is the pure
key fold on first components: the index tie-break never fires. -/
lemma foldl_zminStep_eq_pure (t : List (ℤ × ℕ)) :
    ∀ x, List.Pairwise (fun a b : ℤ × ℕ => a.2 < b.2) (x :: t) →
      t.foldl zminStep x = t.foldl (fun a y => if y.1 < a.1 then y else a) x := by
  induction t with
  | nil => intro x _; rfl
  | cons y t ih =>
    intro x hp
    have hxy : x.2 < y.2 := (List.pairwise_cons.mp hp).1 y (by simp)
    have hpy := (List.pairwise_cons.mp hp).2
    have hxall : ∀ z ∈ t, x.2 < z.2 :=
      fun z hz => (List.pairwise_cons.mp hp).1 z (by simp [hz])
    have hyall : ∀ z ∈ t, y.2 < z.2 :=
      fun z hz => (List.pairwise_cons.mp hpy).1 z hz
    simp only [List.foldl_cons]
    have hstep : zminStep x y = if y.1 < x.1 then y else x := by
      by_cases h : y.1 < x.1
      · simp only [zminStep, if_pos (Or.inl h), if_pos h]
      · rw [show zminStep x y = x from by
          simp only [zminStep]
          rw [if_neg]
          rintro (hc | ⟨-, hc⟩)
          · exact h hc
          · omega]
        rw [if_neg h]
    rw [hstep]
    have hp2 : List.Pairwise (fun a b : ℤ × ℕ => a.2 < b.2)
        ((if y.1 < x.1 then y else x) :: t) := by
      rw [List.pairwise_cons]
      refine ⟨fun z hz => ?_, (List.pairwise_cons.mp hpy).2⟩
      by_cases h : y.1 < x.1
      · rw [if_pos h]; exact hyall z hz
      · rw [if_neg h]; exact hxall z hz
    exact ih _ hp2

/-- Under strictly increasing indices, the `zmaxStep` fold is the pure
key fold on first components taking the new element on ties. -/
lemma foldl_zmaxStep_eq_pure (t : List (ℤ × ℕ)) :
    ∀ x, List.Pairwise (fun a b : ℤ × ℕ => a.2 < b.2) (x :: t) →
      t.foldl zmaxStep x = t.foldl (fun a y => if a.1 ≤ y.1 then y else a) x := by
  induction t with
  | nil => intro x _; rfl
  | cons y t ih =>
    intro x hp
    have hxy : x.2 < y.2 := (List.pairwise_cons.mp hp).1 y (by simp)
    have hpy := (List.pairwise_cons.mp hp).2
    have hxall : ∀ z ∈ t, x.2 < z.2 :=
      fun z hz => (List.pairwise_cons.mp hp).1 z (by simp [hz])
    have hyall : ∀ z ∈ t, y.2 < z.2 :=
      fun z hz => (List.pairwise_cons.mp hpy).1 z hz
    simp only [List.foldl_cons]
    have hstep : zmaxStep x y = if x.1 ≤ y.1 then y else x := by
      by_cases h : x.1 ≤ y.1
      · rw [show zmaxStep x y = y from by
          simp only [zmaxStep]
          rw [if_neg]
          rintro (hc | ⟨-, hc⟩)
          · omega
          · omega]
        rw [if_pos h]
      · have h2 : y.1 < x.1 := by omega
        rw [show zmaxStep x y = x from by
          simp only [zmaxStep]
          rw [if_pos (Or.inl h2)]]
        rw [if_neg h]
    rw [hstep]
    have hp2 : List.Pairwise (fun a b : ℤ × ℕ => a.2 < b.2)
        ((if x.1 ≤ y.1 then y else x) :: t) := by
      rw [List.pairwise_cons]
      refine ⟨fun z hz => ?_, (List.pairwise_cons.mp hpy).2⟩
      by_cases h : x.1 ≤ y.1
      · rw [if_pos h]; exact hyall z hz
      · rw [if_neg h]; exact hxall z hz
    exact ih _ hp2

/-- The `(differential, index)` pairs built from an enumerated result
list have strictly increasing indices. -/
lemma pairwise_zl (L0 : List (Coord × ℤ)) :
    List.Pairwise (fun a b : ℤ × ℕ => a.2 < b.2)
      (L0.enum.map fun q => ((q.2.2 : ℤ), q.1)) := by
  rw [List.pairwise_map]
  have h1 : List.Pairwise (· < ·) (L0.enum.map Prod.fst) := by
    rw [List.enum_map_fst]
    exact List.pairwise_lt_range _
  rw [List.pairwise_map] at h1
  exact h1

/-- In a split of an enumerated list, the pivot's index is the length
of the prefix. -/
lemma enum_split_fst {β : Type} (L0 : List β) (A : List (ℕ × β)) (e : ℕ × β)
    (Bp : List (ℕ × β)) (h : L0.enum = A ++ e :: Bp) : e.1 = A.length := by
  have hf := congrArg (List.map Prod.fst) h
  rw [List.enum_map_fst, List.map_append, List.map_cons] at hf
  have hlen : A.length < L0.length := by
    have hl := congrArg List.length h
    rw [List.enum_length] at hl
    simp at hl
    omega
  have h1 : (List.range L0.length)[A.length]? = some A.length :=
    List.getElem?_range hlen
  rw [hf] at h1
  rw [List.getElem?_append_right (by simp)] at h1
  simp at h1
  omega

/-- Evaluating `find_best_move` on a branching root once the joined
results are known. -/
lemma find_best_move_branch (s : Side) (b : Board) (m1 m2 : Coord × Pos)
    (rest : List (Coord × Pos)) (B : ℕ) (j : ℚ) (results : List (Coord × Score))
    (hmap : (m1 :: m2 :: rest).reverse.mapM
      (fun cp => (ai_eval cp.2 (B / (m1 :: m2 :: rest).length) j).map
        fun sc => (cp.1, sc)) = .ok results) :
    find_best_move (.running s b (m1 :: m2 :: rest)) B j =
      (match (match s with
        | .dark => rustMinBy pairCmp
            (results.enum.map fun p : ℕ × (Coord × Score) => (p.2.2, p.1))
        | .light => rustMaxBy pairCmp
            (results.enum.map fun p : ℕ × (Coord × Score) => (p.2.2, p.1))) with
      | none => .error .emptyFold
      | some bi =>
        (match results.get? bi.2 with
        | none => .error .badIndex
        | some r => .ok r.1)) := by
  simp only [find_best_move]
  rw [hmap]

/-- C8 (amended): when all candidate scores are exact (`Ended`) values,
the chosen move is a deterministic function of the enumeration, but the
tie-break is not "first-encountered best" for both sides.  In
`ai_player.rs`, over the consumption order (which is the reverse of the
enumeration order): Dark keeps the first tied best and Light keeps the
last tied best — equivalently, Light keeps the first-enumerated and
Dark the last-enumerated tied move.  The `players/mod.rs` fold, whose
consumption order is the enumeration order, keeps the first tied best
for Light and the last for Dark — the same enumeration-order behaviour.
Consumption order itself is fixed by the join, so task completion order
never changes the chosen move. -/
theorem c8_tie_break_amended :
    (∀ (s : Side) (b : Board) (q1 q2 : Coord × ℤ) (qs : List (Coord × ℤ)) (B : ℕ) (j : ℚ),
      ∃ (c : Coord) (d : ℤ) (pre post : List (Coord × ℤ)),
        find_best_move (.running s b ((q1 :: q2 :: qs).map endedMove)) B j = .ok c ∧
        (q1 :: q2 :: qs).reverse = pre ++ (c, d) :: post ∧
        (s = .dark → (∀ x ∈ pre, d < x.2) ∧ (∀ x ∈ post, d ≤ x.2)) ∧
        (s = .light → (∀ x ∈ pre, x.2 ≤ d) ∧ (∀ x ∈ post, x.2 < d))) ∧
    (∀ (s : Side) (x : (Nat × Nat) × ℤ) (l : List ((Nat × Nat) × ℤ)),
      ∃ (m : (Nat × Nat) × ℤ) (pre post : List ((Nat × Nat) × ℤ)),
        foldBest ((x :: l).map endedMS) s = some (endedMS m) ∧
        x :: l = pre ++ m :: post ∧
        (s = .light → (∀ y ∈ pre, y.2 < m.2) ∧ (∀ y ∈ post, y.2 ≤ m.2)) ∧
        (s = .dark → (∀ y ∈ pre, m.2 ≤ y.2) ∧ (∀ y ∈ post, m.2 < y.2))) := by
  constructor
  · intro s b q1 q2 qs B j
    set L0 := (q1 :: q2 :: qs).reverse with hL0
    have hmapM : ((endedMove q1 :: endedMove q2 :: qs.map endedMove).reverse).mapM
        (fun cp => (ai_eval cp.2
            (B / (endedMove q1 :: endedMove q2 :: qs.map endedMove).length) j).map
          fun sc => (cp.1, sc)) = .ok (L0.map endedResult) := by
      rw [show (endedMove q1 :: endedMove q2 :: qs.map endedMove).reverse
          = L0.map endedMove from by
        rw [show (endedMove q1 :: endedMove q2 :: qs.map endedMove)
            = (q1 :: q2 :: qs).map endedMove from by simp]
        rw [hL0]
        exact (List.map_reverse _ _).symm]
      rw [mapM_ok_of_forall (L0.map endedMove) _ resultOf ?_]
      · rw [List.map_map]
        exact congrArg _ (List.map_congr_left (fun p _ => rfl))
      · intro x hx
        obtain ⟨p, hp, rfl⟩ := List.mem_map.mp hx
        rfl
    set zl := L0.enum.map (fun q => ((q.2.2 : ℤ), q.1)) with hzl
    have hscored : (L0.map endedResult).enum.map
        (fun p : ℕ × (Coord × Score) => (p.2.2, p.1)) = zl.map endedPair := by
      rw [List.enum_map, hzl, List.map_map, List.map_map]
      exact List.map_congr_left (fun q _ => rfl)
    have hpw : List.Pairwise (fun a b : ℤ × ℕ => a.2 < b.2) zl := pairwise_zl L0
    obtain ⟨z0, zt, hzcons⟩ : ∃ z0 zt, zl = z0 :: zt := by
      cases hc : zl with
      | nil =>
        exfalso
        have hcl := congrArg List.length hc
        rw [hzl] at hcl
        simp [List.enum_length, hL0] at hcl
      | cons a as => exact ⟨a, as, rfl⟩
    rw [hzcons] at hpw
    cases s with
    | dark =>
      have hfold : rustMinBy pairCmp (zl.map endedPair) =
          some (endedPair (zt.foldl (fun a y => if y.1 < a.1 then y else a) z0)) := by
        rw [hzcons, List.map_cons]
        simp only [rustMinBy]
        rw [foldl_min_endedPair, foldl_zminStep_eq_pure zt z0 hpw]
      set r := zt.foldl (fun a y => if y.1 < a.1 then y else a) z0 with hr
      obtain ⟨zpre, zpost, hzsplit, hzpre, hzpost⟩ := foldl_keepFirstMin_split Prod.fst zt z0
      rw [← hr] at hzsplit hzpre hzpost
      have hzsplit2 : L0.enum.map (fun q => ((q.2.2 : ℤ), q.1)) = zpre ++ r :: zpost := by
        rw [← hzl, hzcons]
        exact hzsplit
      obtain ⟨A, l2, hA, hAm, hl2⟩ := List.map_eq_append_iff.mp hzsplit2
      obtain ⟨e, Bp, hl2e, hfe, hBp⟩ := List.map_eq_cons_iff.mp hl2
      rw [hl2e] at hA
      have hidx : e.1 = A.length := enum_split_fst L0 A e Bp hA
      have hL0split : L0 = A.map Prod.snd ++ e.2 :: Bp.map Prod.snd := by
        have h2 := congrArg (List.map Prod.snd) hA
        rw [List.enum_map_snd, List.map_append, List.map_cons] at h2
        exact h2
      have hget : (L0.map endedResult).get? e.1 = some (endedResult e.2) := by
        rw [List.get?_eq_getElem?, hidx]
        conv_lhs => rw [hL0split]
        rw [List.map_append, List.map_cons]
        rw [List.getElem?_append_right (by simp)]
        simp
      have hrval : r = ((e.2.2 : ℤ), e.1) := hfe.symm
      have heval := find_best_move_branch .dark b (endedMove q1) (endedMove q2)
        (qs.map endedMove) B j (L0.map endedResult) hmapM
      rw [hscored, hfold] at heval
      have heval2 : find_best_move (.running .dark b ((q1 :: q2 :: qs).map endedMove)) B j
          = .ok (endedResult e.2).1 := by
        rw [show (q1 :: q2 :: qs).map endedMove
            = endedMove q1 :: endedMove q2 :: qs.map endedMove from by simp]
        rw [heval]
        show (match (L0.map endedResult).get? (endedPair r).2 with
          | none => Except.error RErr.badIndex
          | some r0 => Except.ok r0.1) = _
        rw [show (endedPair r).2 = e.1 from by rw [hrval]; rfl]
        rw [hget]
      refine ⟨(endedResult e.2).1, e.2.2, A.map Prod.snd, Bp.map Prod.snd, heval2, ?_, ?_, ?_⟩
      · rw [show (((endedResult e.2).1, e.2.2) : Coord × ℤ) = e.2 from rfl]
        exact hL0split
      · intro _
        constructor
        · intro x hx
          obtain ⟨a, ha, rfl⟩ := List.mem_map.mp hx
          have hmem : ((a.2.2 : ℤ), a.1) ∈ zpre := by
            rw [← hAm]
            exact List.mem_map_of_mem _ ha
          have h3 := hzpre _ hmem
          rw [hrval] at h3
          exact h3
        · intro x hx
          obtain ⟨a, ha, rfl⟩ := List.mem_map.mp hx
          have hmem : ((a.2.2 : ℤ), a.1) ∈ zpost := by
            rw [← hBp]
            exact List.mem_map_of_mem _ ha
          have h3 := hzpost _ hmem
          rw [hrval] at h3
          exact h3
      · intro hcontra
        exact Side.noConfusion hcontra
    | light =>
      have hfold : rustMaxBy pairCmp (zl.map endedPair) =
          some (endedPair (zt.foldl (fun a y => if a.1 ≤ y.1 then y else a) z0)) := by
        rw [hzcons, List.map_cons]
        simp only [rustMaxBy]
        rw [foldl_max_endedPair, foldl_zmaxStep_eq_pure zt z0 hpw]
      set r := zt.foldl (fun a y => if a.1 ≤ y.1 then y else a) z0 with hr
      obtain ⟨zpre, zpost, hzsplit, hzpre, hzpost⟩ := foldl_keepLastMax_split Prod.fst zt z0
      rw [← hr] at hzsplit hzpre hzpost
      have hzsplit2 : L0.enum.map (fun q => ((q.2.2 : ℤ), q.1)) = zpre ++ r :: zpost := by
        rw [← hzl, hzcons]
        exact hzsplit
      obtain ⟨A, l2, hA, hAm, hl2⟩ := List.map_eq_append_iff.mp hzsplit2
      obtain ⟨e, Bp, hl2e, hfe, hBp⟩ := List.map_eq_cons_iff.mp hl2
      rw [hl2e] at hA
      have hidx : e.1 = A.length := enum_split_fst L0 A e Bp hA
      have hL0split : L0 = A.map Prod.snd ++ e.2 :: Bp.map Prod.snd := by
        have h2 := congrArg (List.map Prod.snd) hA
        rw [List.enum_map_snd, List.map_append, List.map_cons] at h2
        exact h2
      have hget : (L0.map endedResult).get? e.1 = some (endedResult e.2) := by
        rw [List.get?_eq_getElem?, hidx]
        conv_lhs => rw [hL0split]
        rw [List.map_append, List.map_cons]
        rw [List.getElem?_append_right (by simp)]
        simp
      have hrval : r = ((e.2.2 : ℤ), e.1) := hfe.symm
      have heval := find_best_move_branch .light b (endedMove q1) (endedMove q2)
        (qs.map endedMove) B j (L0.map endedResult) hmapM
      rw [hscored, hfold] at heval
      have heval2 : find_best_move (.running .light b ((q1 :: q2 :: qs).map endedMove)) B j
          = .ok (endedResult e.2).1 := by
        rw [show (q1 :: q2 :: qs).map endedMove
            = endedMove q1 :: endedMove q2 :: qs.map endedMove from by simp]
        rw [heval]
        show (match (L0.map endedResult).get? (endedPair r).2 with
          | none => Except.error RErr.badIndex
          | some r0 => Except.ok r0.1) = _
        rw [show (endedPair r).2 = e.1 from by rw [hrval]; rfl]
        rw [hget]
      refine ⟨(endedResult e.2).1, e.2.2, A.map Prod.snd, Bp.map Prod.snd, heval2, ?_, ?_, ?_⟩
      · rw [show (((endedResult e.2).1, e.2.2) : Coord × ℤ) = e.2 from rfl]
        exact hL0split
      · intro hcontra
        exact Side.noConfusion hcontra
      · intro _
        constructor
        · intro x hx
          obtain ⟨a, ha, rfl⟩ := List.mem_map.mp hx
          have hmem : ((a.2.2 : ℤ), a.1) ∈ zpre := by
            rw [← hAm]
            exact List.mem_map_of_mem _ ha
          have h3 := hzpre _ hmem
          rw [hrval] at h3
          exact h3
        · intro x hx
          obtain ⟨a, ha, rfl⟩ := List.mem_map.mp hx
          have hmem : ((a.2.2 : ℤ), a.1) ∈ zpost := by
            rw [← hBp]
            exact List.mem_map_of_mem _ ha
          have h3 := hzpost _ hmem
          rw [hrval] at h3
          exact h3
  · intro s x l
    cases s with
    | dark =>
      rw [List.map_cons, foldBest_cons, foldl_dark_endedMS]
      obtain ⟨pre, post, hs, hpre, hpost⟩ := foldl_keepLastMin_split Prod.snd l x
      exact ⟨l.foldl (fun a y => if y.2 ≤ a.2 then y else a) x, pre, post, rfl, hs,
        fun h => Side.noConfusion h, fun _ => ⟨hpre, hpost⟩⟩
    | light =>
      rw [List.map_cons, foldBest_cons, foldl_light_endedMS]
      obtain ⟨pre, post, hs, hpre, hpost⟩ := foldl_keepFirstMax_split Prod.snd l x
      exact ⟨l.foldl (fun a y => if a.2 < y.2 then y else a) x, pre, post, rfl, hs,
        fun _ => ⟨hpre, hpost⟩, fun h => Side.noConfusion h⟩

/-- C8 witness: the amended characterization instantiated at the
two-way Dark tie of the counterexample position, for both variants. -/
theorem c8_witness :
    (∃ (c : Coord) (d : ℤ) (pre post : List (Coord × ℤ)),
        find_best_move (.running .dark boardEmpty
          ((((0, 0), 5) :: (((0, 1), 5) : Coord × ℤ) :: []).map endedMove)) 10 0 = .ok c ∧
        ((((0, 0), 5) :: (((0, 1), 5) : Coord × ℤ) :: []).reverse = pre ++ (c, d) :: post) ∧
        (Side.dark = Side.dark → (∀ x ∈ pre, d < x.2) ∧ (∀ x ∈ post, d ≤ x.2)) ∧
        (Side.dark = Side.light → (∀ x ∈ pre, x.2 ≤ d) ∧ (∀ x ∈ post, x.2 < d))) ∧
    (∃ (m : (Nat × Nat) × ℤ) (pre post : List ((Nat × Nat) × ℤ)),
        foldBest (((((0, 0), 5) : (Nat × Nat) × ℤ) :: [(((0, 1), 5) : (Nat × Nat) × ℤ)]).map
          endedMS) Side.dark = some (endedMS m) ∧
        ((((0, 0), 5) : (Nat × Nat) × ℤ) :: [(((0, 1), 5) : (Nat × Nat) × ℤ)])
          = pre ++ m :: post ∧
        (Side.dark = Side.light → (∀ y ∈ pre, y.2 < m.2) ∧ (∀ y ∈ post, y.2 ≤ m.2)) ∧
        (Side.dark = Side.dark → (∀ y ∈ pre, m.2 ≤ y.2) ∧ (∀ y ∈ post, m.2 < y.2))) :=
  ⟨c8_tie_break_amended.1 .dark boardEmpty ((0, 0), 5) ((0, 1), 5) [] 10 0,
   c8_tie_break_amended.2 .dark ((0, 0), 5) [((0, 1), 5)]⟩

end Rusthello
